import Mathlib

/-!
# Verification of the NOF-VQE energy pipeline

A shallow embedding, over the rationals, of the numeric core of the
NOF-VQE notebooks (`HF-VQE.ipynb`, `BBAC3-VQE.ipynb`): the natural-orbital
decomposition of a measured 1-RDM, the integral transforms, the
functional-specific coefficient matrices (HF, GU, BBAC3), the assembled
energies and the gradient-descent driver `vqe`.

Modelling conventions:
* scalars are `ℚ` (the notebooks compute with float64; every property
  verified here is an exact algebraic identity of the expressions, so the
  idealized exact-arithmetic semantics is used);
* `jnp.sqrt` is an uninterpreted parameter `sqrt : ℚ → ℚ`: each identity
  proved below holds for every function substituted for it, in particular
  for the numeric square root;
* `jnp.abs` is `|·|` on `ℚ`;
* a python loop nest that assigns `M[p, q] = f(p, q)` over a region of
  index pairs is modelled as the matrix that equals `f` on that region and
  the previous matrix elsewhere, one such overwrite per loop nest, composed
  in program order (later overwrites win, exactly as sequential
  assignments do);
* `jnp.linalg.eigh` and the quantum device (`rdm1_circuit`) are external
  oracles and appear as function parameters;
* python list indexing `rdm1[i]`, which raises `IndexError` past the end,
  is modelled with `Option`: `none` is the aborted evaluation.
-/

namespace NOFVQE

/-- `P_BBAC3(a, x) = a * x**2 * (x**2 - 2)`, from `E_BBAC3`. -/
def P_BBAC3 (a x : ℚ) : ℚ := a * x ^ 2 * (x ^ 2 - 2)

/-- `D_BBAC3(a, x) = P**2 / (1 + P**2)` with `P = P_BBAC3(a, x)`, from `E_BBAC3`. -/
def D_BBAC3 (a x : ℚ) : ℚ := P_BBAC3 a x ^ 2 / (1 + P_BBAC3 a x ^ 2)

/-- The diagonal damping constant `a_d = 1.4423` of `E_BBAC3`. -/
def a_d : ℚ := 1.4423

/-- The cross-block damping constant `a_o = 1.5552` of `E_BBAC3`. -/
def a_o : ℚ := 1.5552

section Builder

variable (norb : ℕ)

/-- First loop nest building `C` in `E_BBAC3`:
`for p in range(F, norb): for q in range(F, norb):
  C[p, q] = 2*sqrt(abs(n[q]*n[p])) + 2*n[q]*n[p]`. -/
def C_loop_vv (sqrt : ℚ → ℚ) (n : Fin norb → ℚ) (F : ℕ)
    (M : Matrix (Fin norb) (Fin norb) ℚ) : Matrix (Fin norb) (Fin norb) ℚ :=
  Matrix.of fun p q =>
    if F ≤ (p : ℕ) ∧ F ≤ (q : ℕ) then 2 * sqrt |n q * n p| + 2 * (n q * n p)
    else M p q

/-- Second loop nest building `C` in `E_BBAC3`:
`for p in range(F): for q in range(F):
  C[p, q] = -2*sqrt(abs(n[q]*n[p])) + 2*n[q]*n[p]`. -/
def C_loop_cc (sqrt : ℚ → ℚ) (n : Fin norb → ℚ) (F : ℕ)
    (M : Matrix (Fin norb) (Fin norb) ℚ) : Matrix (Fin norb) (Fin norb) ℚ :=
  Matrix.of fun p q =>
    if (p : ℕ) < F ∧ (q : ℕ) < F then -2 * sqrt |n q * n p| + 2 * (n q * n p)
    else M p q

/-- Third loop nest building `C` in `E_BBAC3`:
`for p in range(F): for q in range(F, norb):
  C[p, q] = -2*sqrt(abs(n[q]*n[p])) + 2*n[q]*n[p]
  C[q, p] = -2*sqrt(abs(n[p]*n[q])) + 2*n[p]*n[q]`.
An entry `(a, b)` with `a < F ≤ b` is written by the first assignment (loop
variables `p = a`, `q = b`), one with `b < F ≤ a` by the second (loop
variables `p = b`, `q = a`); in both cases the written value is
`-2*sqrt(abs(n[b]*n[a])) + 2*n[b]*n[a]` at that entry. -/
def C_loop_cross (sqrt : ℚ → ℚ) (n : Fin norb → ℚ) (F : ℕ)
    (M : Matrix (Fin norb) (Fin norb) ℚ) : Matrix (Fin norb) (Fin norb) ℚ :=
  Matrix.of fun p q =>
    if (p : ℕ) < F ∧ F ≤ (q : ℕ) then -2 * sqrt |n q * n p| + 2 * (n q * n p)
    else if (q : ℕ) < F ∧ F ≤ (p : ℕ) then -2 * sqrt |n q * n p| + 2 * (n q * n p)
    else M p q

/-- Fourth loop building `C` in `E_BBAC3`:
`for p in range(norb): C[p, p] = -2*sqrt(abs(n[p]*n[p])) + 2*n[p]*n[p]`. -/
def C_loop_diag (sqrt : ℚ → ℚ) (n : Fin norb → ℚ)
    (M : Matrix (Fin norb) (Fin norb) ℚ) : Matrix (Fin norb) (Fin norb) ℚ :=
  Matrix.of fun p q =>
    if p = q then -2 * sqrt |n p * n p| + 2 * (n p * n p)
    else M p q

/-- The intermediate matrix `C` of `E_BBAC3`: starts as `jnp.zeros` and is
written by the four loop nests in program order. -/
def C_BBAC3 (sqrt : ℚ → ℚ) (n : Fin norb → ℚ) (F : ℕ) :
    Matrix (Fin norb) (Fin norb) ℚ :=
  C_loop_diag norb sqrt n
    (C_loop_cross norb sqrt n F (C_loop_cc norb sqrt n F (C_loop_vv norb sqrt n F 0)))

/-- First loop nest building `D` in `E_BBAC3`:
`for p in range(F): for q in range(F): D[p, q] = 1`. -/
def D_loop_cc (F : ℕ) (M : Matrix (Fin norb) (Fin norb) ℚ) :
    Matrix (Fin norb) (Fin norb) ℚ :=
  Matrix.of fun p q => if (p : ℕ) < F ∧ (q : ℕ) < F then 1 else M p q

/-- Second loop building `D` in `E_BBAC3`:
`for p in range(norb): D[p, p] = D_BBAC3(a_d, 2*n[p] - 1)`. -/
def D_loop_diag (n : Fin norb → ℚ) (M : Matrix (Fin norb) (Fin norb) ℚ) :
    Matrix (Fin norb) (Fin norb) ℚ :=
  Matrix.of fun p q => if p = q then D_BBAC3 a_d (2 * n p - 1) else M p q

/-- Third loop nest building `D` in `E_BBAC3`:
`for p in range(F): for q in range(F, norb):
  D[p, q] = D_BBAC3(a_o, 2*n[p] + 2*n[q] - 2)
  D[q, p] = D_BBAC3(a_o, 2*n[q] + 2*n[p] - 2)`.
At an entry `(a, b)` in either mirror region the written value is
`D_BBAC3(a_o, 2*n[a] + 2*n[b] - 2)` at that entry. -/
def D_loop_cross (n : Fin norb → ℚ) (F : ℕ) (M : Matrix (Fin norb) (Fin norb) ℚ) :
    Matrix (Fin norb) (Fin norb) ℚ :=
  Matrix.of fun p q =>
    if (p : ℕ) < F ∧ F ≤ (q : ℕ) then D_BBAC3 a_o (2 * n p + 2 * n q - 2)
    else if (q : ℕ) < F ∧ F ≤ (p : ℕ) then D_BBAC3 a_o (2 * n p + 2 * n q - 2)
    else M p q

/-- The damping matrix `D` of `E_BBAC3`: starts as `jnp.zeros` and is written
by the three loop nests in program order. -/
def D_BBAC3_mat (n : Fin norb → ℚ) (F : ℕ) : Matrix (Fin norb) (Fin norb) ℚ :=
  D_loop_cross norb n F (D_loop_diag norb n (D_loop_cc norb F 0))

/-- `B = (1 - D) * C` of `E_BBAC3` (elementwise product). -/
def B_BBAC3 (sqrt : ℚ → ℚ) (n : Fin norb → ℚ) (F : ℕ) :
    Matrix (Fin norb) (Fin norb) ℚ :=
  Matrix.of fun p q => (1 - D_BBAC3_mat norb n F p q) * C_BBAC3 norb sqrt n F p q

/-- First loop nest building `B` in `E_GU`:
`for p in range(norb): for q in range(norb):
  B[p, q] = jnp.sqrt(jnp.abs(n[p] * n[q]))`.
The nest covers every entry, so the previous matrix (`jnp.zeros`) is
entirely overwritten. -/
def B_GU_loop_all (sqrt : ℚ → ℚ) (n : Fin norb → ℚ)
    (_M : Matrix (Fin norb) (Fin norb) ℚ) : Matrix (Fin norb) (Fin norb) ℚ :=
  Matrix.of fun p q => sqrt |n p * n q|

/-- Second loop building `B` in `E_GU`:
`for p in range(norb): B[p, p] = n[p] ** 2`. -/
def B_GU_loop_diag (n : Fin norb → ℚ) (M : Matrix (Fin norb) (Fin norb) ℚ) :
    Matrix (Fin norb) (Fin norb) ℚ :=
  Matrix.of fun p q => if p = q then n p ^ 2 else M p q

/-- The matrix `B` of `E_GU`: starts as `jnp.zeros` and is written by the two
loops in program order. -/
def B_GU (sqrt : ℚ → ℚ) (n : Fin norb → ℚ) : Matrix (Fin norb) (Fin norb) ℚ :=
  B_GU_loop_diag norb n (B_GU_loop_all norb sqrt n 0)

end Builder

section Transformer

variable (norb : ℕ)

/-- A norb⁴ two-electron tensor. -/
abbrev Tensor4 (norb : ℕ) := Fin norb → Fin norb → Fin norb → Fin norb → ℚ

/-- `h_NO = jnp.einsum("ij,ip,jq->pq", h_MO, vecs, vecs)` of the energy
functions. -/
def h_NO (h_MO vecs : Matrix (Fin norb) (Fin norb) ℚ) :
    Matrix (Fin norb) (Fin norb) ℚ :=
  Matrix.of fun p q => ∑ i, ∑ j, h_MO i j * vecs i p * vecs j q

/-- `J_NO = jnp.einsum("ijkl,ip,jq,kq,lp->pq", I_MO, vecs, vecs, vecs, vecs)`
of the energy functions. -/
def J_NO (I_MO : Tensor4 norb) (vecs : Matrix (Fin norb) (Fin norb) ℚ) :
    Matrix (Fin norb) (Fin norb) ℚ :=
  Matrix.of fun p q =>
    ∑ i, ∑ j, ∑ k, ∑ l, I_MO i j k l * vecs i p * vecs j q * vecs k q * vecs l p

/-- `K_NO = jnp.einsum("ijkl,ip,jp,kq,lq->pq", I_MO, vecs, vecs, vecs, vecs)`
of the energy functions. -/
def K_NO (I_MO : Tensor4 norb) (vecs : Matrix (Fin norb) (Fin norb) ℚ) :
    Matrix (Fin norb) (Fin norb) ℚ :=
  Matrix.of fun p q =>
    ∑ i, ∑ j, ∑ k, ∑ l, I_MO i j k l * vecs i p * vecs j p * vecs k q * vecs l q

end Transformer

section Assembler

variable (norb : ℕ)

/-- The one-electron part `E1 = sum_p 2*n[p]*h_NO[p, p]` shared by all three
energy functions. -/
def E1 (n : Fin norb → ℚ) (hNO : Matrix (Fin norb) (Fin norb) ℚ) : ℚ :=
  ∑ p, 2 * n p * hNO p p

/-- The two-electron part of `E_HF`:
`for p: for q: if p != q: E2 += (n[q]*n[p]) * (2*J_NO[p, q] - K_NO[p, q])`. -/
def E2_HF (n : Fin norb → ℚ) (JNO KNO : Matrix (Fin norb) (Fin norb) ℚ) : ℚ :=
  ∑ p, ∑ q, if p ≠ q then n q * n p * (2 * JNO p q - KNO p q) else 0

/-- The two-electron part of `E_GU`:
`E2 += 2*n[q]*n[p]*J_NO[p, q] - B[q, p]*K_NO[p, q]` over all `p, q`. -/
def E2_GU (sqrt : ℚ → ℚ) (n : Fin norb → ℚ)
    (JNO KNO : Matrix (Fin norb) (Fin norb) ℚ) : ℚ :=
  ∑ p, ∑ q, (2 * n q * n p * JNO p q - B_GU norb sqrt n q p * KNO p q)

/-- The two-electron part of `E_BBAC3`:
`E2 += 2*n[q]*n[p]*J_NO[p, q] + 1/2*(-2*n[p]*n[q] + B[q, p])*K_NO[p, q]`
over all `p, q`. -/
def E2_BBAC3 (sqrt : ℚ → ℚ) (n : Fin norb → ℚ) (F : ℕ)
    (JNO KNO : Matrix (Fin norb) (Fin norb) ℚ) : ℚ :=
  ∑ p, ∑ q,
    (2 * n q * n p * JNO p q +
      1 / 2 * (-2 * n p * n q + B_BBAC3 norb sqrt n F q p) * KNO p q)

/-- The post-decomposition body of `E_HF`: from the occupations `n` and
rotation `vecs`, transform the integrals and assemble
`E_nuc + E1 + E2`. (`E_HF` also computes a hole vector `h = 1 - n`, never
used afterwards; it is omitted.) -/
def E_HF_core (E_nuc : ℚ) (h_MO : Matrix (Fin norb) (Fin norb) ℚ)
    (I_MO : Tensor4 norb) (n : Fin norb → ℚ)
    (vecs : Matrix (Fin norb) (Fin norb) ℚ) : ℚ :=
  E_nuc + E1 norb n (h_NO norb h_MO vecs) +
    E2_HF norb n (J_NO norb I_MO vecs) (K_NO norb I_MO vecs)

/-- The post-decomposition body of `E_GU`. -/
def E_GU_core (sqrt : ℚ → ℚ) (E_nuc : ℚ) (h_MO : Matrix (Fin norb) (Fin norb) ℚ)
    (I_MO : Tensor4 norb) (n : Fin norb → ℚ)
    (vecs : Matrix (Fin norb) (Fin norb) ℚ) : ℚ :=
  E_nuc + E1 norb n (h_NO norb h_MO vecs) +
    E2_GU norb sqrt n (J_NO norb I_MO vecs) (K_NO norb I_MO vecs)

/-- The post-decomposition body of `E_BBAC3`. -/
def E_BBAC3_core (sqrt : ℚ → ℚ) (E_nuc : ℚ) (h_MO : Matrix (Fin norb) (Fin norb) ℚ)
    (I_MO : Tensor4 norb) (n : Fin norb → ℚ) (F : ℕ)
    (vecs : Matrix (Fin norb) (Fin norb) ℚ) : ℚ :=
  E_nuc + E1 norb n (h_NO norb h_MO vecs) +
    E2_BBAC3 norb sqrt n F (J_NO norb I_MO vecs) (K_NO norb I_MO vecs)

end Assembler

section SpecSide

variable (norb : ℕ)

/-- The spec's generic coefficient matrix `A[p, q] = 2*n[p]*n[q]` (stated for
all supported functionals). -/
def A_NOF (n : Fin norb → ℚ) : Matrix (Fin norb) (Fin norb) ℚ :=
  Matrix.of fun p q => 2 * n p * n q

/-- The spec's generic coefficient matrix `C`: the zero matrix for every
functional covered (no L-integral contribution). -/
def C_NOF : Matrix (Fin norb) (Fin norb) ℚ :=
  Matrix.of fun _ _ => 0

/-- The spec's GU exchange matrix: `B[p, q] = sqrt(abs(n[p]*n[q]))` for
`p ≠ q` and `B[p, p] = n[p]^2`. -/
def B_GU_spec (sqrt : ℚ → ℚ) (n : Fin norb → ℚ) :
    Matrix (Fin norb) (Fin norb) ℚ :=
  Matrix.of fun p q => if p = q then n p ^ 2 else sqrt |n p * n q|

/-- The spec's headline four-case BBAC3 exchange matrix:
core-core off-diagonal `n[p]*n[q]`; virtual-virtual off-diagonal
`-sqrt(n[p]*n[q])`; diagonal
`sqrt(n[p]*n[q]) + (n[p]*n[q] - sqrt(n[p]*n[q])) * D_d(2*n[p] - 1)`;
cross-block
`sqrt(n[p]*n[q]) + (n[p]*n[q] - sqrt(n[p]*n[q])) * D_o(2*n[p] + 2*n[q] - 2)`. -/
def B_BBAC3_headline (sqrt : ℚ → ℚ) (n : Fin norb → ℚ) (F : ℕ) :
    Matrix (Fin norb) (Fin norb) ℚ :=
  Matrix.of fun p q =>
    if p = q then
      sqrt (n p * n q) + (n p * n q - sqrt (n p * n q)) * D_BBAC3 a_d (2 * n p - 1)
    else if (p : ℕ) < F ∧ (q : ℕ) < F then n p * n q
    else if F ≤ (p : ℕ) ∧ F ≤ (q : ℕ) then -sqrt (n p * n q)
    else
      sqrt (n p * n q) +
        (n p * n q - sqrt (n p * n q)) * D_BBAC3 a_o (2 * n p + 2 * n q - 2)

end SpecSide

section Decomposer

/-- One row of the reconstruction loops of `get_no_on`: the pairs `(p, q)`
for `q in range(p, norb)`, enumerated as `q = p + j` with `j < norb - p`. -/
def triRow (norb r : ℕ) : List (ℕ × ℕ) :=
  (List.range (norb - r)).map fun j => (r, r + j)

/-- The sequence of index pairs visited by the reconstruction loops of
`get_no_on`: `for p in range(0, norb): for q in range(p, norb)`. -/
def triPairs (norb : ℕ) : List (ℕ × ℕ) :=
  (List.range norb).flatMap (triRow norb)

/-- The assignment loop of `get_no_on`: for each visited pair `(p, q)` read
`rdm1[i]` (python raises `IndexError` past the end, modelled as `none`,
aborting the evaluation), set both `Gamma[p, q]` and `Gamma[q, p]` to the
read value, and continue with `i + 1`. -/
def fillPairs (rdm1 : List ℚ) :
    (ℕ → ℕ → ℚ) → ℕ → List (ℕ × ℕ) → Option (ℕ → ℕ → ℚ)
  | M, _, [] => some M
  | M, i, (p, q) :: rest =>
    match rdm1[i]? with
    | none => none
    | some v =>
      fillPairs rdm1
        (fun a b => if (a = p ∧ b = q) ∨ (a = q ∧ b = p) then v else M a b)
        (i + 1) rest

/-- The 1-RDM reconstruction of `get_no_on`: starting from `jnp.zeros` and
the counter at `-1` (incremented before each read, so the first read is at
index `0`), walk the triangular pairs. -/
def get_no_on_fill (norb : ℕ) (rdm1 : List ℚ) : Option (ℕ → ℕ → ℚ) :=
  fillPairs rdm1 (fun _ _ => 0) 0 (triPairs norb)

/-- The row-major triangular position of the pair `(p, q)` with `p ≤ q`:
the `norb - r` entries of each earlier row `r < p`, then the offset `q - p`
inside row `p`. -/
def triPos (norb p q : ℕ) : ℕ :=
  (∑ r ∈ Finset.range p, (norb - r)) + (q - p)

/-- The reconstructed matrix restricted to `Fin norb` indices. -/
def matOf (norb : ℕ) (M : ℕ → ℕ → ℚ) : Matrix (Fin norb) (Fin norb) ℚ :=
  Matrix.of fun p q => M p q

/-- `n = n[::-1]` and `vecs = vecs[:, ::-1]` of `get_no_on`: reverse the
eigenvalue order and permute the eigenvector columns identically. -/
def rev_eigs (norb : ℕ) (n0 : Fin norb → ℚ)
    (V0 : Matrix (Fin norb) (Fin norb) ℚ) :
    (Fin norb → ℚ) × Matrix (Fin norb) (Fin norb) ℚ :=
  (fun k => n0 k.rev, Matrix.of fun i k => V0 i k.rev)

/-- `get_no_on`: reconstruct the symmetric matrix from the triangular
values, diagonalize it through the external `jnp.linalg.eigh` oracle and
reverse the ascending order. -/
def get_no_on (norb : ℕ)
    (eigh : Matrix (Fin norb) (Fin norb) ℚ →
      (Fin norb → ℚ) × Matrix (Fin norb) (Fin norb) ℚ)
    (rdm1 : List ℚ) :
    Option ((Fin norb → ℚ) × Matrix (Fin norb) (Fin norb) ℚ) :=
  (get_no_on_fill norb rdm1).map fun M =>
    rev_eigs norb (eigh (matOf norb M)).1 (eigh (matOf norb M)).2

end Decomposer

section Pipeline

variable (norb : ℕ)

/-- `E_HF(params, rdm1=None)`: when `rdm1` is not supplied, measure it with
the quantum circuit at `params` (`rdm1 = rdm1_circuit(params)`), otherwise
use it as given; then decompose, transform and assemble. The device
(`rdm1_circuit`) and `jnp.linalg.eigh` are external oracles. -/
def E_HF (E_nuc : ℚ) (h_MO : Matrix (Fin norb) (Fin norb) ℚ)
    (I_MO : Tensor4 norb)
    (eigh : Matrix (Fin norb) (Fin norb) ℚ →
      (Fin norb → ℚ) × Matrix (Fin norb) (Fin norb) ℚ)
    (circuit : ℚ → List ℚ) (params : ℚ) (rdm1 : Option (List ℚ)) : Option ℚ :=
  let r := match rdm1 with
    | none => circuit params
    | some r => r
  (get_no_on norb eigh r).map fun nv => E_HF_core norb E_nuc h_MO I_MO nv.1 nv.2

/-- `E_GU(params, rdm1=None)`, with the same oracle structure as `E_HF`. -/
def E_GU (sqrt : ℚ → ℚ) (E_nuc : ℚ) (h_MO : Matrix (Fin norb) (Fin norb) ℚ)
    (I_MO : Tensor4 norb)
    (eigh : Matrix (Fin norb) (Fin norb) ℚ →
      (Fin norb → ℚ) × Matrix (Fin norb) (Fin norb) ℚ)
    (circuit : ℚ → List ℚ) (params : ℚ) (rdm1 : Option (List ℚ)) : Option ℚ :=
  let r := match rdm1 with
    | none => circuit params
    | some r => r
  (get_no_on norb eigh r).map fun nv =>
    E_GU_core norb sqrt E_nuc h_MO I_MO nv.1 nv.2

/-- `E_BBAC3(params, rdm1=None)`, with the same oracle structure as `E_HF`. -/
def E_BBAC3 (sqrt : ℚ → ℚ) (E_nuc : ℚ) (h_MO : Matrix (Fin norb) (Fin norb) ℚ)
    (I_MO : Tensor4 norb) (F : ℕ)
    (eigh : Matrix (Fin norb) (Fin norb) ℚ →
      (Fin norb → ℚ) × Matrix (Fin norb) (Fin norb) ℚ)
    (circuit : ℚ → List ℚ) (params : ℚ) (rdm1 : Option (List ℚ)) : Option ℚ :=
  let r := match rdm1 with
    | none => circuit params
    | some r => r
  (get_no_on norb eigh r).map fun nv =>
    E_BBAC3_core norb sqrt E_nuc h_MO I_MO nv.1 F nv.2

end Pipeline

section Optimizer

/-- `max_iterations = 1000` of the minimization cells. -/
def max_iterations : ℕ := 1000

/-- `conv_tol = 1e-3` of the minimization cells. -/
def conv_tol : ℚ := 1e-3

/-- The `optax.sgd(learning_rate=0.1)` step applied by `optax.apply_updates`:
`params - 0.1 * gradient`. -/
def learning_rate : ℚ := 0.1

/-- The iteration of `vqe`, with the remaining loop count explicit:
compute the gradient at the current parameters (through the external
gradient oracle `g = jax.grad(E_fn)`), apply the plain gradient-descent
update, append the new parameters and their energy to the histories
(modelled by consing on return), and break when `|gradient| ≤ conv_tol`. -/
def vqeLoop (E g : ℚ → ℚ) : ℕ → ℚ → List ℚ × List ℚ
  | 0, _ => ([], [])
  | fuel + 1, params =>
    let gradient := g params
    let params1 := params - learning_rate * gradient
    if |gradient| ≤ conv_tol then ([E params1], [params1])
    else
      let rest := vqeLoop E g fuel params1
      (E params1 :: rest.1, params1 :: rest.2)

/-- `vqe(E_fn, params)`: seed both histories with the initial entry, run up
to `max_iterations` iterations, return `(E_history, params_history)`. -/
def vqe (E g : ℚ → ℚ) (params : ℚ) : List ℚ × List ℚ :=
  let rest := vqeLoop E g max_iterations params
  (E params :: rest.1, params :: rest.2)

/-- The parameter trajectory of plain gradient descent:
`paramSeq g p (k+1) = paramSeq g p k - learning_rate * g (paramSeq g p k)`. -/
def paramSeq (g : ℚ → ℚ) (p : ℚ) : ℕ → ℚ
  | 0 => p
  | k + 1 => paramSeq g p k - learning_rate * g (paramSeq g p k)

/-- The number of iterations `vqeLoop` executes from a given state. -/
def loopLen (g : ℚ → ℚ) : ℕ → ℚ → ℕ
  | 0, _ => 0
  | fuel + 1, params =>
    if |g params| ≤ conv_tol then 1
    else loopLen g fuel (params - learning_rate * g params) + 1

end Optimizer

section Theorems

/-- Flattened closed form of the final `C` matrix of `E_BBAC3`: the diagonal
loop runs last and overrides the block loops; the three off-diagonal block
regions are pairwise disjoint. -/
theorem C_BBAC3_apply (norb : ℕ) (sqrt : ℚ → ℚ) (n : Fin norb → ℚ) (F : ℕ)
    (p q : Fin norb) :
    C_BBAC3 norb sqrt n F p q =
      if p = q then -2 * sqrt |n p * n p| + 2 * (n p * n p)
      else if (p : ℕ) < F ∧ (q : ℕ) < F then -2 * sqrt |n p * n q| + 2 * (n p * n q)
      else if F ≤ (p : ℕ) ∧ F ≤ (q : ℕ) then 2 * sqrt |n p * n q| + 2 * (n p * n q)
      else -2 * sqrt |n p * n q| + 2 * (n p * n q) := by
  simp only [C_BBAC3, C_loop_diag, C_loop_cross, C_loop_cc, C_loop_vv,
    Matrix.of_apply, Matrix.zero_apply]
  by_cases hpq : p = q
  · simp [hpq]
  · simp only [hpq, if_false]
    rw [mul_comm (n q) (n p)]
    split_ifs <;> first | rfl | omega

/-- Flattened closed form of the final `D` matrix of `E_BBAC3`: the diagonal
loop overrides the core-core loop, the cross loop writes both mirror
regions, the virtual-virtual off-diagonal entries keep the initial zero. -/
theorem D_BBAC3_mat_apply (norb : ℕ) (n : Fin norb → ℚ) (F : ℕ) (p q : Fin norb) :
    D_BBAC3_mat norb n F p q =
      if p = q then D_BBAC3 a_d (2 * n p - 1)
      else if (p : ℕ) < F ∧ (q : ℕ) < F then 1
      else if ((p : ℕ) < F ∧ F ≤ (q : ℕ)) ∨ ((q : ℕ) < F ∧ F ≤ (p : ℕ)) then
        D_BBAC3 a_o (2 * n p + 2 * n q - 2)
      else 0 := by
  simp only [D_BBAC3_mat, D_loop_cross, D_loop_diag, D_loop_cc,
    Matrix.of_apply, Matrix.zero_apply]
  by_cases hpq : p = q
  · subst hpq
    have h1 : ¬((p : ℕ) < F ∧ F ≤ (p : ℕ)) := by omega
    simp [h1]
  · simp only [hpq, if_false]
    split_ifs <;> first | rfl | omega

/-- C2: after all assignment loops of `E_BBAC3` run, `C_raw` has
`-2*sqrt(|n[p]*n[p]|) + 2*n[p]*n[p]` on every diagonal entry (the diagonal
rule overriding the virtual-virtual rule for `p ≥ F`),
`-2*sqrt(|n[p]*n[q]|) + 2*n[p]*n[q]` on core-core and cross-block
off-diagonal entries and `+2*sqrt(|n[p]*n[q]|) + 2*n[p]*n[q]` on
virtual-virtual off-diagonal entries; `D` is `1` on core-core off-diagonal
entries, `D_d(2*n[p]-1)` on every diagonal entry (overriding the core-core
rule for `p < F`), `D_o(2*n[p]+2*n[q]-2)` on cross-block entries in both
index orders and `0` on virtual-virtual off-diagonal entries, with
`D_k(x) = P_k(x)^2/(1+P_k(x)^2)`, `P_k(x) = a_k*x^2*(x^2-2)`,
`a_d = 1.4423`, `a_o = 1.5552`; and `B_final = (1-D)*C_raw` elementwise. -/
theorem C2_BBAC3_builder (norb : ℕ) (sqrt : ℚ → ℚ) (n : Fin norb → ℚ) (F : ℕ)
    (hF0 : 0 < F) (hFn : F ≤ norb) :
    a_d = 1.4423 ∧ a_o = 1.5552 ∧
    (∀ a x : ℚ, D_BBAC3 a x =
      (a * x ^ 2 * (x ^ 2 - 2)) ^ 2 / (1 + (a * x ^ 2 * (x ^ 2 - 2)) ^ 2)) ∧
    (∀ p q : Fin norb,
      C_BBAC3 norb sqrt n F p q =
        if p = q then -2 * sqrt |n p * n p| + 2 * (n p * n p)
        else if (p : ℕ) < F ∧ (q : ℕ) < F then -2 * sqrt |n p * n q| + 2 * (n p * n q)
        else if F ≤ (p : ℕ) ∧ F ≤ (q : ℕ) then 2 * sqrt |n p * n q| + 2 * (n p * n q)
        else -2 * sqrt |n p * n q| + 2 * (n p * n q)) ∧
    (∀ p q : Fin norb,
      D_BBAC3_mat norb n F p q =
        if p = q then D_BBAC3 a_d (2 * n p - 1)
        else if (p : ℕ) < F ∧ (q : ℕ) < F then 1
        else if ((p : ℕ) < F ∧ F ≤ (q : ℕ)) ∨ ((q : ℕ) < F ∧ F ≤ (p : ℕ)) then
          D_BBAC3 a_o (2 * n p + 2 * n q - 2)
        else 0) ∧
    (∀ p q : Fin norb,
      B_BBAC3 norb sqrt n F p q =
        (1 - D_BBAC3_mat norb n F p q) * C_BBAC3 norb sqrt n F p q) :=
  ⟨rfl, rfl, fun a x => rfl, C_BBAC3_apply norb sqrt n F,
    D_BBAC3_mat_apply norb n F, fun p q => rfl⟩

/-- C2 witness: the builder description instantiated at `norb = 2`, `F = 1`,
`sqrt = id`, `n = (1, 1/2)`. -/
theorem C2_BBAC3_builder_witness :
    (0 < 1 ∧ 1 ≤ 2) ∧
    (a_d = 1.4423 ∧ a_o = 1.5552 ∧
    (∀ a x : ℚ, D_BBAC3 a x =
      (a * x ^ 2 * (x ^ 2 - 2)) ^ 2 / (1 + (a * x ^ 2 * (x ^ 2 - 2)) ^ 2)) ∧
    (∀ p q : Fin 2,
      C_BBAC3 2 id ![1, 1/2] 1 p q =
        if p = q then -2 * id |(![1, 1/2] : Fin 2 → ℚ) p * ![1, 1/2] p| +
          2 * (![1, 1/2] p * ![1, 1/2] p)
        else if (p : ℕ) < 1 ∧ (q : ℕ) < 1 then
          -2 * id |(![1, 1/2] : Fin 2 → ℚ) p * ![1, 1/2] q| +
            2 * (![1, 1/2] p * ![1, 1/2] q)
        else if 1 ≤ (p : ℕ) ∧ 1 ≤ (q : ℕ) then
          2 * id |(![1, 1/2] : Fin 2 → ℚ) p * ![1, 1/2] q| +
            2 * (![1, 1/2] p * ![1, 1/2] q)
        else -2 * id |(![1, 1/2] : Fin 2 → ℚ) p * ![1, 1/2] q| +
          2 * (![1, 1/2] p * ![1, 1/2] q)) ∧
    (∀ p q : Fin 2,
      D_BBAC3_mat 2 ![1, 1/2] 1 p q =
        if p = q then D_BBAC3 a_d (2 * ![1, 1/2] p - 1)
        else if (p : ℕ) < 1 ∧ (q : ℕ) < 1 then 1
        else if ((p : ℕ) < 1 ∧ 1 ≤ (q : ℕ)) ∨ ((q : ℕ) < 1 ∧ 1 ≤ (p : ℕ)) then
          D_BBAC3 a_o (2 * ![1, 1/2] p + 2 * ![1, 1/2] q - 2)
        else 0) ∧
    (∀ p q : Fin 2,
      B_BBAC3 2 id ![1, 1/2] 1 p q =
        (1 - D_BBAC3_mat 2 ![1, 1/2] 1 p q) * C_BBAC3 2 id ![1, 1/2] 1 p q)) :=
  ⟨⟨by decide, by decide⟩,
    C2_BBAC3_builder 2 id ![1, 1/2] 1 (by decide) (by decide)⟩

/-- C1: for non-negative occupations and `0 ≤ F ≤ norb`, the coefficient
`0.5*(-2*n[p]*n[q] + B_final[q, p])` that `E_BBAC3` applies to `K_NO[p, q]`
equals `-B[q, p]` for the headline four-case BBAC3 matrix `B`; hence the
implemented two-electron energy equals the generic NOF form
`sum_pq A[p, q]*J_NO[q, p] - sum_pq B[p, q]*K_NO[q, p]` with
`A[p, q] = 2*n[p]*n[q]`. -/
theorem C1_BBAC3_refinement (norb : ℕ) (sqrt : ℚ → ℚ) (n : Fin norb → ℚ)
    (F : ℕ) (hn : ∀ p, 0 ≤ n p) (hF : F ≤ norb)
    (JNO KNO : Matrix (Fin norb) (Fin norb) ℚ) :
    (∀ p q : Fin norb,
      1 / 2 * (-2 * n p * n q + B_BBAC3 norb sqrt n F q p) =
        -B_BBAC3_headline norb sqrt n F q p) ∧
    E2_BBAC3 norb sqrt n F JNO KNO =
      (∑ p, ∑ q, A_NOF norb n p q * JNO q p) -
        ∑ p, ∑ q, B_BBAC3_headline norb sqrt n F p q * KNO q p := by
  have habs : ∀ a b : Fin norb, |n a * n b| = n a * n b := fun a b =>
    abs_of_nonneg (mul_nonneg (hn a) (hn b))
  have key : ∀ p q : Fin norb,
      1 / 2 * (-2 * n p * n q + B_BBAC3 norb sqrt n F q p) =
        -B_BBAC3_headline norb sqrt n F q p := by
    intro p q
    simp only [B_BBAC3, B_BBAC3_headline, Matrix.of_apply, C_BBAC3_apply,
      D_BBAC3_mat_apply, habs]
    by_cases hqp : q = p
    · subst hqp
      simp only [eq_self_iff_true, if_true]
      ring
    · simp only [hqp, if_false]
      split_ifs <;> first | (exfalso; omega) | ring
  refine ⟨key, ?_⟩
  have hsplit : E2_BBAC3 norb sqrt n F JNO KNO =
      (∑ p, ∑ q, 2 * n q * n p * JNO p q) -
        ∑ p, ∑ q, B_BBAC3_headline norb sqrt n F q p * KNO p q := by
    unfold E2_BBAC3
    rw [← Finset.sum_sub_distrib]
    refine Finset.sum_congr rfl fun p _ => ?_
    rw [← Finset.sum_sub_distrib]
    refine Finset.sum_congr rfl fun q _ => ?_
    rw [key p q]
    ring
  rw [hsplit]
  have hJ : (∑ p, ∑ q, 2 * n q * n p * JNO p q) =
      ∑ p, ∑ q, A_NOF norb n p q * JNO q p := by
    rw [Finset.sum_comm]
    simp only [A_NOF, Matrix.of_apply]
  have hK : (∑ p, ∑ q, B_BBAC3_headline norb sqrt n F q p * KNO p q) =
      ∑ p, ∑ q, B_BBAC3_headline norb sqrt n F p q * KNO q p := by
    rw [Finset.sum_comm]
  rw [hJ, hK]

/-- C1 witness: the refinement instantiated at `norb = 2`, `F = 1`,
`sqrt = id`, `n = (1, 1/2)` and concrete `J_NO`, `K_NO` matrices. -/
theorem C1_BBAC3_refinement_witness :
    (∀ p : Fin 2, 0 ≤ (![1, 0] : Fin 2 → ℚ) p) ∧ 1 ≤ 2 ∧
    ((∀ p q : Fin 2,
      1 / 2 * (-2 * (![1, 0] : Fin 2 → ℚ) p * ![1, 0] q +
          B_BBAC3 2 id ![1, 0] 1 q p) =
        -B_BBAC3_headline 2 id ![1, 0] 1 q p) ∧
    E2_BBAC3 2 id ![1, 0] 1 !![1, 2; 3, 4] !![5, 6; 7, 8] =
      (∑ p, ∑ q, A_NOF 2 ![1, 0] p q * (!![1, 2; 3, 4] : Matrix (Fin 2) (Fin 2) ℚ) q p) -
        ∑ p, ∑ q, B_BBAC3_headline 2 id ![1, 0] 1 p q *
          (!![5, 6; 7, 8] : Matrix (Fin 2) (Fin 2) ℚ) q p) :=
  ⟨by decide, by decide,
    C1_BBAC3_refinement 2 id ![1, 0] 1 (by decide) (by decide)
      !![1, 2; 3, 4] !![5, 6; 7, 8]⟩

/-- The `B` matrix of `E_GU` coincides entrywise with the spec's piecewise
definition: diagonal `n[p]^2` (the second loop overrides the first there),
off-diagonal `sqrt(|n[p]*n[q]|)`. -/
theorem B_GU_apply (norb : ℕ) (sqrt : ℚ → ℚ) (n : Fin norb → ℚ) (p q : Fin norb) :
    B_GU norb sqrt n p q = B_GU_spec norb sqrt n p q := rfl

/-- C3: the GU energy equals
`E_nuc + sum_p 2*n[p]*h_NO[p,p] + sum_pq (2*n[q]*n[p]*J_NO[p,q] - B[q,p]*K_NO[p,q])`
over all pairs including the diagonal, with `B[p,q] = sqrt(|n[p]*n[q]|)` off
the diagonal and `B[p,p] = n[p]^2`, the K-term using the transposed index
`B[q,p]`. -/
theorem C3_GU_energy (norb : ℕ) (sqrt : ℚ → ℚ) (E_nuc : ℚ)
    (h_MO : Matrix (Fin norb) (Fin norb) ℚ) (I_MO : Tensor4 norb)
    (n : Fin norb → ℚ) (vecs : Matrix (Fin norb) (Fin norb) ℚ) :
    E_GU_core norb sqrt E_nuc h_MO I_MO n vecs =
      E_nuc + (∑ p, 2 * n p * h_NO norb h_MO vecs p p) +
        ∑ p, ∑ q, (2 * n q * n p * J_NO norb I_MO vecs p q -
          B_GU_spec norb sqrt n q p * K_NO norb I_MO vecs p q) := rfl

/-- C4: for HF, GU and BBAC3 the generic coefficient matrices satisfy
`A[p,q] = 2*n[p]*n[q]` and `C[p,q] = 0` everywhere; in each assembled
two-electron sum the coefficient multiplying `J_NO[p,q]` is `2*n[p]*n[q]`
for every pair the sum ranges over (HF excludes the diagonal), and no
L-integral contribution appears (the `C`-weighted sum vanishes for every
`L`). -/
theorem C4_A_and_C_coefficients (norb : ℕ) (sqrt : ℚ → ℚ) (n : Fin norb → ℚ)
    (F : ℕ) (JNO KNO : Matrix (Fin norb) (Fin norb) ℚ) :
    (∀ p q : Fin norb, A_NOF norb n p q = 2 * n p * n q) ∧
    (∀ p q : Fin norb, C_NOF norb p q = 0) ∧
    E2_HF norb n JNO KNO =
      (∑ p, ∑ q, if p = q then 0 else A_NOF norb n p q * JNO p q) -
        (∑ p, ∑ q, if p = q then 0 else n p * n q * KNO p q) ∧
    E2_GU norb sqrt n JNO KNO =
      (∑ p, ∑ q, A_NOF norb n p q * JNO p q) -
        (∑ p, ∑ q, B_GU norb sqrt n q p * KNO p q) ∧
    E2_BBAC3 norb sqrt n F JNO KNO =
      (∑ p, ∑ q, A_NOF norb n p q * JNO p q) +
        (∑ p, ∑ q, 1 / 2 * (-2 * n p * n q + B_BBAC3 norb sqrt n F q p) * KNO p q) ∧
    (∀ L : Matrix (Fin norb) (Fin norb) ℚ, (∑ p, ∑ q, C_NOF norb p q * L q p) = 0) := by
  refine ⟨fun p q => rfl, fun p q => rfl, ?_, ?_, ?_, fun L => by
    simp [C_NOF]⟩
  · unfold E2_HF
    rw [← Finset.sum_sub_distrib]
    refine Finset.sum_congr rfl fun p _ => ?_
    rw [← Finset.sum_sub_distrib]
    refine Finset.sum_congr rfl fun q _ => ?_
    by_cases h : p = q
    · simp [h]
    · simp only [h, Ne, not_false_iff, if_true, if_false, ite_true, ite_false]
      simp only [A_NOF, Matrix.of_apply]
      ring
  · unfold E2_GU
    rw [← Finset.sum_sub_distrib]
    refine Finset.sum_congr rfl fun p _ => ?_
    rw [← Finset.sum_sub_distrib]
    refine Finset.sum_congr rfl fun q _ => ?_
    simp only [A_NOF, Matrix.of_apply]
    ring
  · unfold E2_BBAC3
    rw [← Finset.sum_add_distrib]
    refine Finset.sum_congr rfl fun p _ => ?_
    rw [← Finset.sum_add_distrib]
    refine Finset.sum_congr rfl fun q _ => ?_
    simp only [A_NOF, Matrix.of_apply]
    ring

/-- The final `C` matrix of `E_BBAC3` is symmetric. -/
theorem C_BBAC3_symm_entry (norb : ℕ) (sqrt : ℚ → ℚ) (n : Fin norb → ℚ)
    (F : ℕ) (p q : Fin norb) :
    C_BBAC3 norb sqrt n F p q = C_BBAC3 norb sqrt n F q p := by
  rw [C_BBAC3_apply, C_BBAC3_apply]
  by_cases h : p = q
  · simp [h]
  · have h' : ¬q = p := fun e => h e.symm
    simp only [h, h', if_false]
    rw [mul_comm (n p) (n q)]
    split_ifs <;> first | (exfalso; omega) | rfl

/-- The final `D` matrix of `E_BBAC3` is symmetric. -/
theorem D_BBAC3_mat_symm_entry (norb : ℕ) (n : Fin norb → ℚ) (F : ℕ)
    (p q : Fin norb) :
    D_BBAC3_mat norb n F p q = D_BBAC3_mat norb n F q p := by
  rw [D_BBAC3_mat_apply, D_BBAC3_mat_apply]
  by_cases h : p = q
  · simp [h]
  · have h' : ¬q = p := fun e => h e.symm
    simp only [h, h', if_false]
    rw [add_comm (2 * n p) (2 * n q)]
    split_ifs <;> first | (exfalso; omega) | rfl

/-- C9 (implicit): the exchange matrices built by `E_GU` and `E_BBAC3` are
symmetric for every occupation vector and Fermi index, so the transposed
index `B[q, p]` in the K-term yields exactly the energy that `B[p, q]`
would. -/
theorem C9_B_symmetric (norb : ℕ) (sqrt : ℚ → ℚ) (n : Fin norb → ℚ) (F : ℕ) :
    (∀ p q : Fin norb, B_GU norb sqrt n p q = B_GU norb sqrt n q p) ∧
    (∀ p q : Fin norb,
      B_BBAC3 norb sqrt n F p q = B_BBAC3 norb sqrt n F q p) ∧
    (∀ JNO KNO : Matrix (Fin norb) (Fin norb) ℚ,
      E2_GU norb sqrt n JNO KNO =
        ∑ p, ∑ q, (2 * n q * n p * JNO p q - B_GU norb sqrt n p q * KNO p q)) ∧
    (∀ JNO KNO : Matrix (Fin norb) (Fin norb) ℚ,
      E2_BBAC3 norb sqrt n F JNO KNO =
        ∑ p, ∑ q, (2 * n q * n p * JNO p q +
          1 / 2 * (-2 * n p * n q + B_BBAC3 norb sqrt n F p q) * KNO p q)) := by
  have hGU : ∀ p q : Fin norb, B_GU norb sqrt n p q = B_GU norb sqrt n q p := by
    intro p q
    simp only [B_GU, B_GU_loop_diag, B_GU_loop_all, Matrix.of_apply]
    by_cases h : p = q
    · simp [h]
    · have h' : ¬q = p := fun e => h e.symm
      simp only [h, h', if_false]
      rw [mul_comm (n p) (n q)]
  have hB3 : ∀ p q : Fin norb,
      B_BBAC3 norb sqrt n F p q = B_BBAC3 norb sqrt n F q p := by
    intro p q
    simp only [B_BBAC3, Matrix.of_apply]
    rw [C_BBAC3_symm_entry, D_BBAC3_mat_symm_entry]
  refine ⟨hGU, hB3, ?_, ?_⟩
  · intro JNO KNO
    unfold E2_GU
    refine Finset.sum_congr rfl fun p _ => Finset.sum_congr rfl fun q _ => ?_
    rw [hGU q p]
  · intro JNO KNO
    unfold E2_BBAC3
    refine Finset.sum_congr rfl fun p _ => Finset.sum_congr rfl fun q _ => ?_
    rw [hB3 q p]

/-- Reindexing a quadruple sum by the pair swap `(i, j, k, l) ↦ (k, l, i, j)`. -/
theorem sum4_swap {n : ℕ} (f : Fin n → Fin n → Fin n → Fin n → ℚ) :
    (∑ i, ∑ j, ∑ k, ∑ l, f i j k l) = ∑ i, ∑ j, ∑ k, ∑ l, f k l i j := by
  have key : ∀ g : Fin n × Fin n × Fin n × Fin n → ℚ,
      (∑ x, g x) = ∑ i, ∑ j, ∑ k, ∑ l, g (i, j, k, l) := by
    intro g
    simp [Fintype.sum_prod_type]
  rw [← key fun x => f x.1 x.2.1 x.2.2.1 x.2.2.2,
    ← key fun x => f x.2.2.1 x.2.2.2 x.1 x.2.1]
  exact Fintype.sum_equiv
    ⟨fun x => (x.2.2.1, x.2.2.2, x.1, x.2.1),
      fun x => (x.2.2.1, x.2.2.2, x.1, x.2.1),
      fun x => rfl, fun x => rfl⟩ _ _ (fun x => rfl)

/-- C8: for a rotation matrix and a two-electron tensor with the standard
8-fold permutational symmetry, the transformed `J_NO` and `K_NO` matrices
are each symmetric. -/
theorem C8_JK_symmetric (norb : ℕ) (I_MO : Tensor4 norb)
    (vecs : Matrix (Fin norb) (Fin norb) ℚ)
    (hij : ∀ i j k l, I_MO i j k l = I_MO j i k l)
    (hkl : ∀ i j k l, I_MO i j k l = I_MO i j l k)
    (hswap : ∀ i j k l, I_MO i j k l = I_MO k l i j) :
    (∀ p q, J_NO norb I_MO vecs p q = J_NO norb I_MO vecs q p) ∧
    (∀ p q, K_NO norb I_MO vecs p q = K_NO norb I_MO vecs q p) := by
  constructor
  · intro p q
    simp only [J_NO, Matrix.of_apply]
    rw [sum4_swap]
    refine Finset.sum_congr rfl fun i _ => Finset.sum_congr rfl fun j _ =>
      Finset.sum_congr rfl fun k _ => Finset.sum_congr rfl fun l _ => ?_
    rw [hswap k l i j]
    ring
  · intro p q
    simp only [K_NO, Matrix.of_apply]
    rw [sum4_swap]
    refine Finset.sum_congr rfl fun i _ => Finset.sum_congr rfl fun j _ =>
      Finset.sum_congr rfl fun k _ => Finset.sum_congr rfl fun l _ => ?_
    rw [hswap k l i j]
    ring

/-- C8 witness: the constant tensor has the 8-fold symmetry, and the
transformed matrices at a concrete rotation are symmetric. -/
theorem C8_JK_symmetric_witness :
    (∀ i j k l : Fin 2, (fun _ _ _ _ => (1 : ℚ)) i j k l =
      (fun _ _ _ _ => (1 : ℚ)) j i k l) ∧
    ((∀ p q, J_NO 2 (fun _ _ _ _ => (1 : ℚ)) !![1, 2; 3, 4] p q =
        J_NO 2 (fun _ _ _ _ => (1 : ℚ)) !![1, 2; 3, 4] q p) ∧
      (∀ p q, K_NO 2 (fun _ _ _ _ => (1 : ℚ)) !![1, 2; 3, 4] p q =
        K_NO 2 (fun _ _ _ _ => (1 : ℚ)) !![1, 2; 3, 4] q p)) :=
  ⟨fun _ _ _ _ => rfl,
    C8_JK_symmetric 2 (fun _ _ _ _ => (1 : ℚ)) !![1, 2; 3, 4]
      (fun _ _ _ _ => rfl) (fun _ _ _ _ => rfl) (fun _ _ _ _ => rfl)⟩

/-- `fillPairs` succeeds exactly when the reads `i, i+1, ...` for the whole
pair list stay inside the input vector. -/
theorem fillPairs_isSome_iff (rdm1 : List ℚ) :
    ∀ (ps : List (ℕ × ℕ)) (i : ℕ) (M : ℕ → ℕ → ℚ), i ≤ rdm1.length →
      ((fillPairs rdm1 M i ps).isSome ↔ i + ps.length ≤ rdm1.length) := by
  intro ps
  induction ps with
  | nil =>
    intro i M hi
    simp [fillPairs]
    omega
  | cons hd rest ih =>
    intro i M hi
    obtain ⟨p, q⟩ := hd
    rcases Nat.lt_or_ge i rdm1.length with hlt | hge
    · obtain ⟨v, hv⟩ : ∃ v, rdm1[i]? = some v := ⟨_, List.getElem?_eq_getElem hlt⟩
      rw [show fillPairs rdm1 M i ((p, q) :: rest) =
          fillPairs rdm1
            (fun a b => if (a = p ∧ b = q) ∨ (a = q ∧ b = p) then v else M a b)
            (i + 1) rest by
        simp [fillPairs, hv]]
      rw [ih (i + 1) _ (by omega)]
      simp [List.length_cons]
      omega
    · have hv : rdm1[i]? = none := List.getElem?_eq_none_iff.mpr hge
      rw [show fillPairs rdm1 M i ((p, q) :: rest) = none by simp [fillPairs, hv]]
      simp [List.length_cons]
      omega

/-- The triangular pair walk visits `norb*(norb+1)/2` pairs. -/
theorem triPairs_length (norb : ℕ) :
    (triPairs norb).length = norb * (norb + 1) / 2 := by
  have hsum : ∀ m : ℕ, 2 * (∑ r ∈ Finset.range m, (m - r)) = m * (m + 1) := by
    intro m
    induction m with
    | zero => rfl
    | succ k ih =>
      have hshift : (∑ r ∈ Finset.range k, (k + 1 - r)) =
          (∑ r ∈ Finset.range k, (k - r)) + k := by
        have hcongr : ∀ r ∈ Finset.range k, k + 1 - r = (k - r) + 1 :=
          fun r hr => by
            have := Finset.mem_range.mp hr
            omega
        rw [Finset.sum_congr rfl hcongr, Finset.sum_add_distrib,
          Finset.sum_const, Finset.card_range, smul_eq_mul, mul_one]
      have hone : k + 1 - k = 1 := by omega
      rw [Finset.sum_range_succ, hshift, hone]
      calc 2 * ((∑ r ∈ Finset.range k, (k - r)) + k + 1)
          = 2 * (∑ r ∈ Finset.range k, (k - r)) + 2 * k + 2 := by ring
        _ = k * (k + 1) + 2 * k + 2 := by rw [ih]
        _ = (k + 1) * (k + 1 + 1) := by ring
  have hlen : (triPairs norb).length = ∑ r ∈ Finset.range norb, (norb - r) := by
    rw [triPairs, List.length_flatMap]
    show (List.map _ (List.range norb)).sum = (List.map _ (List.range norb)).sum
    refine congrArg List.sum (List.map_congr_left fun r _ => ?_)
    simp [triRow]
  have h := hsum norb
  omega

/-- C5 counterexample: an input of length 4 (not `m*(m+1)/2` for any `m`)
does not abort the reconstruction: with the module-level `norb = 2` the
loops read only the first three entries and silently return a matrix. -/
theorem C5_counterexample :
    (get_no_on_fill 2 [1, 0, 0, 5]).isSome = true := by decide

/-- C5 amended: `get_no_on` performs no shape validation keyed to triangular
lengths. With the module-level `norb` fixed, the reconstruction succeeds
exactly when the vector has at least `norb*(norb+1)/2` entries (any extra
entries are ignored); with fewer entries it aborts with an index error, not
a `ShapeMismatch` tied to "no integer norb". -/
theorem C5_no_shape_validation :
    ∀ (norb : ℕ) (rdm1 : List ℚ),
      (get_no_on_fill norb rdm1).isSome ↔ norb * (norb + 1) / 2 ≤ rdm1.length := by
  intro norb rdm1
  unfold get_no_on_fill
  rw [fillPairs_isSome_iff rdm1 (triPairs norb) 0 _ (Nat.zero_le _),
    triPairs_length]
  omega

/-- An entry not matched by any pair of the remaining walk keeps its value. -/
theorem fillPairs_preserve (rdm1 : List ℚ) (a b : ℕ) :
    ∀ (ps : List (ℕ × ℕ)) (i : ℕ) (M M' : ℕ → ℕ → ℚ),
      fillPairs rdm1 M i ps = some M' →
      (∀ pq ∈ ps, ¬((a = pq.1 ∧ b = pq.2) ∨ (a = pq.2 ∧ b = pq.1))) →
      M' a b = M a b := by
  intro ps
  induction ps with
  | nil =>
    intro i M M' h _
    simp only [fillPairs, Option.some.injEq] at h
    rw [← h]
  | cons hd rest ih =>
    intro i M M' h hnot
    obtain ⟨p, q⟩ := hd
    cases hv : rdm1[i]? with
    | none => simp [fillPairs, hv] at h
    | some v =>
      rw [show fillPairs rdm1 M i ((p, q) :: rest) =
          fillPairs rdm1
            (fun x y => if (x = p ∧ y = q) ∨ (x = q ∧ y = p) then v else M x y)
            (i + 1) rest from by simp [fillPairs, hv]] at h
      have hM1 := ih (i + 1) _ M' h fun pq hpq => hnot pq (List.mem_cons_of_mem _ hpq)
      rw [hM1]
      have hhd := hnot (p, q) (List.mem_cons_self _ _)
      show (if (a = p ∧ b = q) ∨ (a = q ∧ b = p) then v else M a b) = M a b
      exact if_neg hhd

/-- The entry matched by a pair of the walk, and by no later pair, receives
the value read at that pair's position. -/
theorem fillPairs_write (rdm1 : List ℚ) (a b p q : ℕ)
    (hhit : (a = p ∧ b = q) ∨ (a = q ∧ b = p)) :
    ∀ (ps1 ps2 : List (ℕ × ℕ)) (i : ℕ) (M M' : ℕ → ℕ → ℚ),
      fillPairs rdm1 M i (ps1 ++ (p, q) :: ps2) = some M' →
      (∀ pq ∈ ps2, ¬((a = pq.1 ∧ b = pq.2) ∨ (a = pq.2 ∧ b = pq.1))) →
      M' a b = rdm1.getD (i + ps1.length) 0 := by
  intro ps1
  induction ps1 with
  | nil =>
    intro ps2 i M M' h hnot
    simp only [List.nil_append] at h
    cases hv : rdm1[i]? with
    | none => simp [fillPairs, hv] at h
    | some v =>
      rw [show fillPairs rdm1 M i ((p, q) :: ps2) =
          fillPairs rdm1
            (fun x y => if (x = p ∧ y = q) ∨ (x = q ∧ y = p) then v else M x y)
            (i + 1) ps2 from by simp [fillPairs, hv]] at h
      have hkeep := fillPairs_preserve rdm1 a b ps2 (i + 1) _ M' h hnot
      rw [hkeep]
      show (if (a = p ∧ b = q) ∨ (a = q ∧ b = p) then v else M a b) = _
      rw [if_pos hhit]
      simp [List.getD, hv]
  | cons hd ps1' ih =>
    intro ps2 i M M' h hnot
    obtain ⟨r, s⟩ := hd
    simp only [List.cons_append] at h
    cases hv : rdm1[i]? with
    | none => simp [fillPairs, hv] at h
    | some v =>
      rw [show fillPairs rdm1 M i ((r, s) :: (ps1' ++ (p, q) :: ps2)) =
          fillPairs rdm1
            (fun x y => if (x = r ∧ y = s) ∨ (x = s ∧ y = r) then v else M x y)
            (i + 1) (ps1' ++ (p, q) :: ps2) from by simp [fillPairs, hv]] at h
      have hrec := ih ps2 (i + 1) _ M' h hnot
      have harith : i + 1 + ps1'.length = i + ((r, s) :: ps1').length := by
        simp only [List.length_cons]
        omega
      rw [← harith]
      exact hrec

/-- The triangular walk decomposes around any pair `(p, q)` with
`p ≤ q < norb`: the pairs before it occupy exactly the row-major triangular
position, and every pair after it lies strictly later in row-major order. -/
theorem triPairs_split (norb p q : ℕ) (hpq : p ≤ q) (hq : q < norb) :
    ∃ ps1 ps2 : List (ℕ × ℕ),
      triPairs norb = ps1 ++ (p, q) :: ps2 ∧
      ps1.length = triPos norb p q ∧
      (∀ pq2 ∈ ps2, pq2.1 ≤ pq2.2 ∧ (p < pq2.1 ∨ (pq2.1 = p ∧ q < pq2.2))) := by
  have hple : p ≤ norb := le_of_lt (lt_of_le_of_lt hpq hq)
  have hrow : triRow norb p =
      ((List.range (q - p)).map fun j => (p, p + j)) ++
        ((p, q) :: ((List.range (norb - q - 1)).map fun j => (p, q + j + 1))) := by
    rw [triRow]
    have hd : norb - p = (q - p) + (norb - q) := by omega
    rw [hd, List.range_add, List.map_append, List.map_map]
    congr 1
    have he : norb - q = (norb - q - 1) + 1 := by omega
    rw [he, List.range_succ_eq_map, List.map_cons, List.map_map]
    congr 1
    · show (p, p + (q - p + 0)) = (p, q)
      have : p + (q - p + 0) = q := by omega
      rw [this]
    · refine List.map_congr_left fun j hj => ?_
      show (p, p + (q - p + (j + 1))) = (p, q + j + 1)
      have : p + (q - p + (j + 1)) = q + j + 1 := by omega
      rw [this]
  have hsplit1 : triPairs norb =
      ((List.range p).flatMap (triRow norb)) ++
        (triRow norb p ++
          ((List.range (norb - p - 1)).flatMap fun t => triRow norb (p + t + 1))) := by
    have hrange : List.range norb =
        List.range p ++ (List.range (norb - p)).map (p + ·) := by
      conv_lhs => rw [← Nat.add_sub_cancel' hple]
      exact List.range_add _ _
    rw [triPairs, hrange, List.flatMap_append, List.flatMap_map]
    congr 1
    have h2 : norb - p = (norb - p - 1) + 1 := by omega
    rw [h2, List.range_succ_eq_map, List.flatMap_cons, List.flatMap_map]
    simp only [Nat.add_sub_cancel, Nat.add_zero]
    rfl
  refine ⟨((List.range p).flatMap (triRow norb)) ++
      ((List.range (q - p)).map fun j => (p, p + j)),
    ((List.range (norb - q - 1)).map fun j => (p, q + j + 1)) ++
      ((List.range (norb - p - 1)).flatMap fun t => triRow norb (p + t + 1)),
    ?_, ?_, ?_⟩
  · rw [hsplit1, hrow]
    simp [List.append_assoc]
  · have hA : ((List.range p).flatMap (triRow norb)).length =
        ∑ r ∈ Finset.range p, (norb - r) := by
      rw [List.length_flatMap]
      show (List.map _ (List.range p)).sum = (List.map _ (List.range p)).sum
      refine congrArg List.sum (List.map_congr_left fun r _ => ?_)
      simp [triRow]
    simp [List.length_append, List.length_map, List.length_range, hA, triPos]
  · intro pq2 hmem
    rcases List.mem_append.mp hmem with hc | hr
    · obtain ⟨j, hj, rfl⟩ := List.mem_map.mp hc
      exact ⟨by omega, Or.inr ⟨rfl, by omega⟩⟩
    · obtain ⟨t, ht, hmem2⟩ := List.mem_flatMap.mp hr
      obtain ⟨j, hj, rfl⟩ := List.mem_map.mp hmem2
      exact ⟨by omega, Or.inl (by omega)⟩

/-- C7: for an input of length `norb*(norb+1)/2`, `get_no_on` reconstructs
the symmetric matrix by setting `Gamma[p, q] = Gamma[q, p] = value[i]` for
each row-major triangular index; and the reversal step turns an ascending
eigendecomposition into occupations sorted descending whose matched column
of `vecs` is an eigenvector with that eigenvalue. -/
theorem C7_get_no_on_decomposition :
    (∀ (norb : ℕ) (rdm1 : List ℚ), rdm1.length = norb * (norb + 1) / 2 →
      ∃ M, get_no_on_fill norb rdm1 = some M ∧
        ∀ p q : ℕ, p ≤ q → q < norb →
          M p q = rdm1.getD (triPos norb p q) 0 ∧
          M q p = rdm1.getD (triPos norb p q) 0) ∧
    (∀ (norb : ℕ) (Γ : Matrix (Fin norb) (Fin norb) ℚ) (n0 : Fin norb → ℚ)
        (V0 : Matrix (Fin norb) (Fin norb) ℚ),
      (∀ j k : Fin norb, j ≤ k → n0 j ≤ n0 k) →
      (∀ k, Γ.mulVec (fun i => V0 i k) = fun i => n0 k * V0 i k) →
      ((∀ j k : Fin norb, j ≤ k →
          (rev_eigs norb n0 V0).1 k ≤ (rev_eigs norb n0 V0).1 j) ∧
        ∀ k, Γ.mulVec (fun i => (rev_eigs norb n0 V0).2 i k) =
          fun i => (rev_eigs norb n0 V0).1 k * (rev_eigs norb n0 V0).2 i k)) := by
  constructor
  · intro norb rdm1 hlen
    have hsome : (get_no_on_fill norb rdm1).isSome := by
      unfold get_no_on_fill
      rw [fillPairs_isSome_iff rdm1 (triPairs norb) 0 _ (Nat.zero_le _),
        triPairs_length]
      omega
    obtain ⟨M, hM⟩ := Option.isSome_iff_exists.mp hsome
    refine ⟨M, hM, ?_⟩
    intro p q hpq hq
    obtain ⟨ps1, ps2, hsplit, hlen1, hshape⟩ := triPairs_split norb p q hpq hq
    have hM' : fillPairs rdm1 (fun _ _ => 0) 0 (ps1 ++ (p, q) :: ps2) = some M := by
      rw [← hsplit]
      exact hM
    constructor
    · have hno : ∀ pq2 ∈ ps2,
          ¬((p = pq2.1 ∧ q = pq2.2) ∨ (p = pq2.2 ∧ q = pq2.1)) := by
        intro pq2 hmem
        obtain ⟨hle, hlater⟩ := hshape pq2 hmem
        rcases hlater with h | h <;> omega
      have := fillPairs_write rdm1 p q p q (Or.inl ⟨rfl, rfl⟩) ps1 ps2 0 _ M hM' hno
      rwa [hlen1, Nat.zero_add] at this
    · have hno : ∀ pq2 ∈ ps2,
          ¬((q = pq2.1 ∧ p = pq2.2) ∨ (q = pq2.2 ∧ p = pq2.1)) := by
        intro pq2 hmem
        obtain ⟨hle, hlater⟩ := hshape pq2 hmem
        rcases hlater with h | h <;> omega
      have := fillPairs_write rdm1 q p p q (Or.inr ⟨rfl, rfl⟩) ps1 ps2 0 _ M hM' hno
      rwa [hlen1, Nat.zero_add] at this
  · intro norb Γ n0 V0 hasc heig
    constructor
    · intro j k hjk
      exact hasc k.rev j.rev (Fin.rev_le_rev.mpr hjk)
    · intro k
      exact heig k.rev

/-- The energy history entries of `vqeLoop` are the energies of the
parameter history entries. -/
theorem vqeLoop_fst (E g : ℚ → ℚ) :
    ∀ (f : ℕ) (p : ℚ), (vqeLoop E g f p).1 = (vqeLoop E g f p).2.map E := by
  intro f
  induction f with
  | zero => intro p; rfl
  | succ k ih =>
    intro p
    by_cases h : |g p| ≤ conv_tol
    · simp [vqeLoop, h]
    · simp [vqeLoop, h, ih]

/-- Restarting the descent trajectory after one step shifts its index. -/
theorem paramSeq_shift (g : ℚ → ℚ) (p : ℚ) :
    ∀ k, paramSeq g (p - learning_rate * g p) k = paramSeq g p (k + 1) := by
  intro k
  induction k with
  | zero => rfl
  | succ k ih =>
    show paramSeq g (p - learning_rate * g p) k - _ = paramSeq g p (k + 1) - _
    rw [ih]

/-- One unfolding step of `loopLen`. -/
theorem loopLen_succ (g : ℚ → ℚ) (f : ℕ) (p : ℚ) :
    loopLen g (f + 1) p =
      if |g p| ≤ conv_tol then 1
      else loopLen g f (p - learning_rate * g p) + 1 := rfl

/-- The parameter history of `vqeLoop` is the descent trajectory truncated
at the executed iteration count. -/
theorem vqeLoop_snd (E g : ℚ → ℚ) :
    ∀ (f : ℕ) (p : ℚ),
      (vqeLoop E g f p).2 =
        (List.range (loopLen g f p)).map fun i => paramSeq g p (i + 1) := by
  intro f
  induction f with
  | zero => intro p; rfl
  | succ k ih =>
    intro p
    by_cases h : |g p| ≤ conv_tol
    · rw [show (vqeLoop E g (k + 1) p).2 = [p - learning_rate * g p] from by
        simp [vqeLoop, h]]
      rw [show loopLen g (k + 1) p = 1 from by rw [loopLen_succ, if_pos h]]
      rfl
    · simp only [vqeLoop, loopLen, h, if_false]
      rw [ih, List.range_succ_eq_map, List.map_cons, List.map_map]
      congr 1
      refine List.map_congr_left fun j _ => ?_
      show paramSeq g (p - learning_rate * g p) (j + 1) = paramSeq g p (j + 1 + 1)
      rw [paramSeq_shift]

/-- `vqeLoop` executes at most as many iterations as its remaining count. -/
theorem loopLen_le (g : ℚ → ℚ) : ∀ (f : ℕ) (p : ℚ), loopLen g f p ≤ f := by
  intro f
  induction f with
  | zero => intro p; exact le_refl 0
  | succ k ih =>
    intro p
    by_cases h : |g p| ≤ conv_tol
    · simp [loopLen, h]
    · simp only [loopLen, h, if_false]
      exact Nat.add_le_add_right (ih _) 1

/-- With fuel left, `vqeLoop` executes at least one iteration (the python
loop body always runs before the break test). -/
theorem loopLen_pos (g : ℚ → ℚ) :
    ∀ (f : ℕ) (p : ℚ), 0 < f → 0 < loopLen g f p := by
  intro f
  induction f with
  | zero => intro p h; omega
  | succ k ih =>
    intro p _
    by_cases h : |g p| ≤ conv_tol
    · simp [loopLen, h]
    · simp only [loopLen, h, if_false]
      omega

/-- `vqeLoop` keeps iterating only while the pre-update gradient misses the
tolerance: any iteration other than the last saw an unconverged gradient. -/
theorem loopLen_stop (g : ℚ → ℚ) :
    ∀ (f : ℕ) (p : ℚ) (i : ℕ), i + 1 < loopLen g f p →
      ¬ |g (paramSeq g p i)| ≤ conv_tol := by
  intro f
  induction f with
  | zero => intro p i h; simp [loopLen] at h
  | succ k ih =>
    intro p i h
    by_cases hc : |g p| ≤ conv_tol
    · simp [loopLen, hc] at h
    · simp only [loopLen, hc, if_false] at h
      match i with
      | 0 => exact hc
      | i' + 1 =>
        have := ih (p - learning_rate * g p) i' (by omega)
        rwa [paramSeq_shift] at this

/-- `vqeLoop` ends either by exhausting the iteration cap or right after an
iteration whose pre-update gradient met the tolerance. -/
theorem loopLen_last (g : ℚ → ℚ) :
    ∀ (f : ℕ) (p : ℚ), loopLen g f p = f ∨
      |g (paramSeq g p (loopLen g f p - 1))| ≤ conv_tol := by
  intro f
  induction f with
  | zero => intro p; exact Or.inl rfl
  | succ k ih =>
    intro p
    by_cases hc : |g p| ≤ conv_tol
    · right
      simp [loopLen, hc, paramSeq]
    · match k with
      | 0 =>
        left
        simp [loopLen, hc]
      | k' + 1 =>
        rcases ih (p - learning_rate * g p) with h | h
        · left
          rw [loopLen_succ, if_neg hc, h]
        · right
          have hpos := loopLen_pos g (k' + 1) (p - learning_rate * g p) (by omega)
          rw [loopLen_succ, if_neg hc, Nat.add_sub_cancel,
            show loopLen g (k' + 1) (p - learning_rate * g p) =
              (loopLen g (k' + 1) (p - learning_rate * g p) - 1) + 1 from by omega,
            ← paramSeq_shift]
          exact h

/-- C6: `vqe` seeds both histories with the initial entry, iterates plain
gradient descent (`params - 0.1*gradient`) at most `max_iterations = 1000`
times, appends each new parameter and its energy, exits right after the
first iteration whose pre-update gradient satisfies
`|gradient| ≤ conv_tol = 1e-3`, always terminates, and returns
`(E_history, params_history)` of length `iterations + 1`; hitting the cap
is a normal return. -/
theorem C6_vqe_gradient_descent (E g : ℚ → ℚ) (p0 : ℚ) :
    max_iterations = 1000 ∧ conv_tol = 1 / 1000 ∧ learning_rate = 1 / 10 ∧
    paramSeq g p0 0 = p0 ∧
    (∀ j, paramSeq g p0 (j + 1) =
      paramSeq g p0 j - learning_rate * g (paramSeq g p0 j)) ∧
    ∃ k : ℕ, 1 ≤ k ∧ k ≤ max_iterations ∧
      (vqe E g p0).2 = (List.range (k + 1)).map (paramSeq g p0) ∧
      (vqe E g p0).1 = ((List.range (k + 1)).map (paramSeq g p0)).map E ∧
      (vqe E g p0).1.length = k + 1 ∧ (vqe E g p0).2.length = k + 1 ∧
      (∀ i, i + 1 < k → ¬ |g (paramSeq g p0 i)| ≤ conv_tol) ∧
      (k = max_iterations ∨ |g (paramSeq g p0 (k - 1))| ≤ conv_tol) := by
  refine ⟨rfl, by norm_num [conv_tol], by norm_num [learning_rate], rfl,
    fun j => rfl, loopLen g max_iterations p0, ?_, loopLen_le g _ p0, ?_, ?_,
    ?_, ?_, loopLen_stop g max_iterations p0, loopLen_last g max_iterations p0⟩
  · exact loopLen_pos g max_iterations p0 (by norm_num [max_iterations])
  · show p0 :: (vqeLoop E g max_iterations p0).2 = _
    rw [vqeLoop_snd, List.range_succ_eq_map, List.map_cons, List.map_map]
    rfl
  · show E p0 :: (vqeLoop E g max_iterations p0).1 = _
    rw [vqeLoop_fst, vqeLoop_snd]
    simp only [List.range_succ_eq_map, List.map_cons, List.map_map]
    rfl
  · show (E p0 :: (vqeLoop E g max_iterations p0).1).length = _
    rw [vqeLoop_fst, vqeLoop_snd]
    simp
  · show (p0 :: (vqeLoop E g max_iterations p0).2).length = _
    rw [vqeLoop_snd]
    simp

/-- C10 (implicit): when the optional `rdm1` argument is supplied, `E_HF`,
`E_GU` and `E_BBAC3` never invoke the quantum circuit and ignore `params`
entirely: the result is the same for any two parameter values and any two
circuit oracles. -/
theorem C10_params_ignored_with_rdm1 (norb : ℕ) (sqrt : ℚ → ℚ) (E_nuc : ℚ)
    (h_MO : Matrix (Fin norb) (Fin norb) ℚ) (I_MO : Tensor4 norb) (F : ℕ)
    (eigh : Matrix (Fin norb) (Fin norb) ℚ →
      (Fin norb → ℚ) × Matrix (Fin norb) (Fin norb) ℚ)
    (circuit1 circuit2 : ℚ → List ℚ) (theta1 theta2 : ℚ) (r : List ℚ) :
    E_HF norb E_nuc h_MO I_MO eigh circuit1 theta1 (some r) =
      E_HF norb E_nuc h_MO I_MO eigh circuit2 theta2 (some r) ∧
    E_GU norb sqrt E_nuc h_MO I_MO eigh circuit1 theta1 (some r) =
      E_GU norb sqrt E_nuc h_MO I_MO eigh circuit2 theta2 (some r) ∧
    E_BBAC3 norb sqrt E_nuc h_MO I_MO F eigh circuit1 theta1 (some r) =
      E_BBAC3 norb sqrt E_nuc h_MO I_MO F eigh circuit2 theta2 (some r) :=
  ⟨rfl, rfl, rfl⟩

end Theorems

end NOFVQE
